import Mathlib

/-!
Verification of the sparse-matrix engine in `src/sparse_matrix.py`.

The Python code is shallowly embedded: Python `dict` becomes an association
list with unique keys (`PyDict`), Python strings become Lean `String`s whose
primitive operations (`strip`, `split`, `int(...)`, `str(...)`) are modelled
on the underlying character lists, and fallible operations (file parsing,
the dimension-checked arithmetic operations) return `Option`.
-/

/-! ## Python string primitives -/

/-- The whitespace characters stripped by Python `str.strip()` (ASCII part). -/
def isPyWS (c : Char) : Bool :=
  c = ' ' || c = '\t' || c = '\n' || c = '\r' || c = '\x0b' || c = '\x0c'

/-- Model of Python `str.strip()` on the character list. -/
def stripChars (l : List Char) : List Char :=
  ((l.dropWhile isPyWS).reverse.dropWhile isPyWS).reverse

/-- Model of Python `str.strip()`. -/
def pyStrip (s : String) : String :=
  ⟨stripChars s.data⟩

/-- Model of Python `str.split(sep)` for a one-character separator:
splits on every occurrence; the empty string yields `[[]]`. -/
def splitOnChar (sep : Char) : List Char → List (List Char)
  | [] => [[]]
  | c :: cs =>
    if c = sep then [] :: splitOnChar sep cs
    else
      match splitOnChar sep cs with
      | h :: t => (c :: h) :: t
      | [] => [[c]]

/-- An ASCII decimal digit (what Python `int()` accepts in base 10,
restricted to ASCII). -/
def isDig (c : Char) : Bool :=
  48 ≤ c.toNat && c.toNat ≤ 57

/-- Helper for Python `int()`: consume the digits after the first one,
allowing a single underscore between two digits (as Python does),
accumulating the decimal value. -/
def digitsUAux : List Char → Nat → Option Nat
  | [], acc => some acc
  | c :: cs, acc =>
    if isDig c then digitsUAux cs (10 * acc + (c.toNat - 48))
    else if c = '_' then
      match cs with
      | c2 :: cs2 =>
        if isDig c2 then digitsUAux cs2 (10 * acc + (c2.toNat - 48)) else none
      | [] => none
    else none

/-- Helper for Python `int()`: parse a nonempty digit sequence
(with Python's single-underscore-between-digits allowance). -/
def parseDigitsU : List Char → Option Nat
  | [] => none
  | c :: cs => if isDig c then digitsUAux cs (c.toNat - 48) else none

/-- Model of Python `int(s)` on a character list: surrounding whitespace is
stripped, an optional single sign is allowed, then a nonempty digit
sequence.  Returns `none` where Python raises `ValueError`. -/
def pyIntChars (l : List Char) : Option Int :=
  match stripChars l with
  | '-' :: rest => (parseDigitsU rest).map (fun n => -(n : Int))
  | '+' :: rest => (parseDigitsU rest).map (fun n => (n : Int))
  | rest => (parseDigitsU rest).map (fun n => (n : Int))

/-- Decimal digits of a natural number, most significant first
(the digits of Python `str(n)`). -/
def natDigits (n : Nat) : List Char :=
  if n < 10 then [Char.ofNat (48 + n)]
  else natDigits (n / 10) ++ [Char.ofNat (48 + n % 10)]
termination_by n
decreasing_by omega

/-- Model of Python `str(i)` for an integer, as a character list. -/
def intChars : Int → List Char
  | Int.ofNat n => natDigits n
  | Int.negSucc m => '-' :: natDigits (m + 1)

/-- Model of Python `str(i)` for an integer. -/
def strOfInt (i : Int) : String :=
  ⟨intChars i⟩

/-- Drop a final empty chunk (a split of a text ending in a newline
produces one; Python `readlines` does not report it as a line). -/
def dropLastEmpty (ps : List (List Char)) : List (List Char) :=
  match ps.getLast? with
  | some [] => ps.dropLast
  | _ => ps

/-- Model of Python `file.readlines()` composed with dropping each line's
trailing newline: the parser strips every line before use, so keeping the
terminator would make no difference. -/
def pyReadLines (s : String) : List String :=
  (dropLastEmpty (splitOnChar '\n' s.data)).map (fun l => ⟨l⟩)

/-! ## The element dictionary

Python's `self.elements` is a `dict` keyed by `(row, col)` pairs.  It is
embedded as an association list; `insertAL` models `d[key] = value`
(overwriting in place, appending fresh keys at the end, exactly the
key-order behaviour of a Python dict) and `lookupAL` models
`d.get(key)` / `key in d`. -/

abbrev PyDict := List ((Int × Int) × Int)

/-- Model of Python `d.get(key)` / `key in d` on the element dictionary. -/
def lookupAL : PyDict → (Int × Int) → Option Int
  | [], _ => none
  | (k, v) :: t, q => if k = q then some v else lookupAL t q

/-- Model of Python `d[key] = value`: overwrite in place, append if new. -/
def insertAL : PyDict → (Int × Int) → Int → PyDict
  | [], q, v => [(q, v)]
  | (k, w) :: t, q, v => if k = q then (q, v) :: t else (k, w) :: insertAL t q v

/-- A Python dict never stores a key twice; an association list embeds a
reachable `elements` dict exactly when its keys are pairwise distinct. -/
def NodupKeys (l : PyDict) : Prop :=
  (l.map Prod.fst).Nodup

instance (l : PyDict) : Decidable (NodupKeys l) := by
  unfold NodupKeys
  infer_instance

/-- Sum of the values stored for a key (equals the unique stored value on a
`NodupKeys` list). -/
def sumAt (l : PyDict) (q : Int × Int) : Int :=
  ((l.filter (fun e => e.1 = q)).map Prod.snd).sum

/-! ## The SparseMatrix data model and operations -/

/-- The `SparseMatrix` object: declared dimensions and the element dict.
Dimensions are `Int` because the Python code never constrains the parsed
header values. -/
structure SparseMatrix where
  num_rows : Int
  num_cols : Int
  elements : PyDict
deriving DecidableEq, Repr

/-- `get_element`: the stored value, or 0 if the coordinate is absent.
Total — the Python method never raises, for any integer coordinates. -/
def getElement (m : SparseMatrix) (r c : Int) : Int :=
  (lookupAL m.elements (r, c)).getD 0

/-- `set_element`: insert or overwrite, with no bounds check. Total. -/
def setElement (m : SparseMatrix) (r c v : Int) : SparseMatrix :=
  { m with elements := insertAL m.elements (r, c) v }

/-- `result.elements[key] += x` when the key exists, else
`result.elements[key] = x` — the accumulation step shared by `add` and
`multiply`. -/
def accumAdd (res : PyDict) (q : Int × Int) (x : Int) : PyDict :=
  match lookupAL res q with
  | some old => insertAL res q (old + x)
  | none => insertAL res q x

/-- The element dict produced by `add`: a copy of `a` merged with `b`. -/
def addElems (a b : PyDict) : PyDict :=
  b.foldl (fun res e => accumAdd res e.1 e.2) a

/-- The element dict produced by `subtract`: a copy of `a`, then each entry
of `b` either subtracted from an existing entry or inserted negated. -/
def subElems (a b : PyDict) : PyDict :=
  b.foldl
    (fun res e =>
      match lookupAL res e.1 with
      | some old => insertAL res e.1 (old - e.2)
      | none => insertAL res e.1 (-e.2)) a

/-- `add`: `none` models the `ValueError` on a dimension mismatch. -/
def add (m o : SparseMatrix) : Option SparseMatrix :=
  if m.num_rows ≠ o.num_rows ∨ m.num_cols ≠ o.num_cols then none
  else some ⟨m.num_rows, m.num_cols, addElems m.elements o.elements⟩

/-- `subtract`: `none` models the `ValueError` on a dimension mismatch. -/
def subtract (m o : SparseMatrix) : Option SparseMatrix :=
  if m.num_rows ≠ o.num_rows ∨ m.num_cols ≠ o.num_cols then none
  else some ⟨m.num_rows, m.num_cols, subElems m.elements o.elements⟩

/-- The inner loop body of `multiply`: for a fixed entry
`(row, col) -> value` of the left matrix and a column index `k`, accumulate
`value * bElems[(col, k)]` into the result when `(col, k)` is stored. -/
def innerStep (bElems : PyDict) (row col value : Int) (res : PyDict) (k : Nat) : PyDict :=
  match lookupAL bElems (col, (k : Int)) with
  | some bv => accumAdd res (row, (k : Int)) (value * bv)
  | none => res

/-- The element dict produced by `multiply`: for every stored entry of `a`
and every `k in range(bCols)`, accumulate the product. -/
def mulElems (a : PyDict) (bCols : Int) (bElems : PyDict) : PyDict :=
  a.foldl
    (fun res e =>
      (List.range bCols.toNat).foldl (innerStep bElems e.1.1 e.1.2 e.2) res) []

/-- `multiply`: `none` models the `ValueError` on a dimension mismatch. -/
def multiply (m o : SparseMatrix) : Option SparseMatrix :=
  if m.num_cols ≠ o.num_rows then none
  else some ⟨m.num_rows, o.num_cols, mulElems m.elements o.num_cols o.elements⟩

/-- All stored entries lie inside the declared dimensions. -/
def InBounds (m : SparseMatrix) : Prop :=
  ∀ e ∈ m.elements, 0 ≤ e.1.1 ∧ e.1.1 < m.num_rows ∧ 0 ≤ e.1.2 ∧ e.1.2 < m.num_cols

instance (m : SparseMatrix) : Decidable (InBounds m) := by
  unfold InBounds
  infer_instance

/-! ## The parser (`load_matrix`) -/

/-- `int(line.strip().split('=')[1])`: how both header lines are read.
Note the key before the `=` is never examined and text after a second `=`
is discarded by the `[1]` indexing. -/
def headerNum (line : String) : Option Int :=
  match (splitOnChar '=' (stripChars line.data)).get? 1 with
  | some part => pyIntChars part
  | none => none

/-- Python `line[1:-1]`. -/
def pyInterior (l : List Char) : List Char :=
  (l.drop 1).dropLast

/-- One iteration of the entry loop of `load_matrix`: skip a blank line,
require a `(`‑wrapped, `)`‑terminated line whose interior splits into
exactly three integers, and store the triple (last write wins).  `none`
models the `ValueError` raised for a bad line. -/
def parseEntryLine (acc : PyDict) (rawLine : String) : Option PyDict :=
  if stripChars rawLine.data = [] then some acc
  else if (stripChars rawLine.data).head? = some '(' &&
      (stripChars rawLine.data).getLast? = some ')' then
    match splitOnChar ',' (pyInterior (stripChars rawLine.data)) with
    | [a, b, c] =>
      match pyIntChars a, pyIntChars b, pyIntChars c with
      | some r, some cc, some v => some (insertAL acc (r, cc) v)
      | _, _, _ => none
    | _ => none
  else none

/-- Is an entry line acceptable to `load_matrix` (blank, or a parenthesized
triple of comma-separated integers)? -/
def entryLineOk (rawLine : String) : Bool :=
  stripChars rawLine.data = [] ||
    (((stripChars rawLine.data).head? = some '(' &&
        (stripChars rawLine.data).getLast? = some ')') &&
      match splitOnChar ',' (pyInterior (stripChars rawLine.data)) with
      | [a, b, c] =>
        (pyIntChars a).isSome && (pyIntChars b).isSome && (pyIntChars c).isSome
      | _ => false)

/-- `load_matrix` on the list of lines of the file: read the two header
values, then fold the entry lines into the dict.  `none` models the
umbrella `ValueError` (missing lines, malformed header, malformed entry). -/
def loadMatrix (lines : List String) : Option SparseMatrix :=
  match lines with
  | l0 :: l1 :: rest =>
    match headerNum l0, headerNum l1 with
    | some r, some c =>
      match rest.foldlM parseEntryLine [] with
      | some elems => some ⟨r, c, elems⟩
      | none => none
    | _, _ => none
  | _ => none

/-- `load_matrix` on the raw file text. -/
def loadMatrixStr (s : String) : Option SparseMatrix :=
  loadMatrix (pyReadLines s)

/-! ## The formatter (`__str__`) -/

/-- Python tuple comparison on `((row, col), value)` items, as used by
`sorted(self.elements.items())`. -/
def entryLe (a b : (Int × Int) × Int) : Prop :=
  a.1.1 < b.1.1 ∨ (a.1.1 = b.1.1 ∧ (a.1.2 < b.1.2 ∨ (a.1.2 = b.1.2 ∧ a.2 ≤ b.2)))

instance : DecidableRel entryLe := fun a b => by
  unfold entryLe
  infer_instance

instance : IsTotal ((Int × Int) × Int) entryLe := by
  constructor
  intro a b
  obtain ⟨⟨a1, a2⟩, a3⟩ := a
  obtain ⟨⟨b1, b2⟩, b3⟩ := b
  simp only [entryLe]
  omega

instance : IsTrans ((Int × Int) × Int) entryLe := by
  constructor
  intro a b c hab hbc
  obtain ⟨⟨a1, a2⟩, a3⟩ := a
  obtain ⟨⟨b1, b2⟩, b3⟩ := b
  obtain ⟨⟨c1, c2⟩, c3⟩ := c
  simp only [entryLe] at hab hbc ⊢
  omega

/-- Ascending lexicographic order on coordinates (row first, then column). -/
def keyLe (a b : Int × Int) : Prop :=
  a.1 < b.1 ∨ (a.1 = b.1 ∧ a.2 ≤ b.2)

/-- Model of Python `sorted(elements.items())`. -/
def sortEntries (l : PyDict) : PyDict :=
  List.insertionSort entryLe l

/-- The f-string `f"({row}, {col}, {value})\n"` appended for one entry. -/
def entryStr (e : (Int × Int) × Int) : String :=
  "(" ++ strOfInt e.1.1 ++ ", " ++ strOfInt e.1.2 ++ ", " ++ strOfInt e.2 ++ ")\n"

/-- `__str__`: the header f-string, then one line per stored entry in
sorted order, accumulated exactly like the Python `output +=` loop. -/
def matStr (m : SparseMatrix) : String :=
  (sortEntries m.elements).foldl (fun out e => out ++ entryStr e)
    ("rows=" ++ strOfInt m.num_rows ++ "\n" ++ "cols=" ++ strOfInt m.num_cols ++ "\n")

/-! ## Heap model for the frame claim

Python objects live on a heap and `add`/`subtract`/`multiply` mutate only
the freshly constructed result object.  To state that, matrix objects are
placed in an explicit heap (a list of objects addressed by index); each
operation reads its two operands, allocates the result at a fresh address,
and `set_element` mutates exactly the addressed object. -/

/-- A heap-allocated matrix object. -/
structure PyObj where
  num_rows : Int
  num_cols : Int
  elements : PyDict
deriving DecidableEq, Repr

abbrev Heap := List PyObj

/-- `add` on heap references: read both operands, allocate the result. -/
def hAdd (h : Heap) (a b : Nat) : Option (Heap × Nat) :=
  match h.get? a, h.get? b with
  | some A, some B =>
    if A.num_rows ≠ B.num_rows ∨ A.num_cols ≠ B.num_cols then none
    else some (h ++ [⟨A.num_rows, A.num_cols, addElems A.elements B.elements⟩], h.length)
  | _, _ => none

/-- `subtract` on heap references. -/
def hSub (h : Heap) (a b : Nat) : Option (Heap × Nat) :=
  match h.get? a, h.get? b with
  | some A, some B =>
    if A.num_rows ≠ B.num_rows ∨ A.num_cols ≠ B.num_cols then none
    else some (h ++ [⟨A.num_rows, A.num_cols, subElems A.elements B.elements⟩], h.length)
  | _, _ => none

/-- `multiply` on heap references. -/
def hMul (h : Heap) (a b : Nat) : Option (Heap × Nat) :=
  match h.get? a, h.get? b with
  | some A, some B =>
    if A.num_cols ≠ B.num_rows then none
    else some (h ++ [⟨A.num_rows, B.num_cols, mulElems A.elements B.num_cols B.elements⟩], h.length)
  | _, _ => none

/-- `set_element` on a heap reference: mutate the addressed object only. -/
def hSet (h : Heap) (r : Nat) (q : Int × Int) (v : Int) : Heap :=
  match h.get? r with
  | some A => h.set r ⟨A.num_rows, A.num_cols, insertAL A.elements q v⟩
  | none => h

/-! ## Auxiliary definitions used by the statements and proofs -/

/-- The logical value at a coordinate of an element dict (0 when absent). -/
def look0 (l : PyDict) (q : Int × Int) : Int :=
  (lookupAL l q).getD 0

/-- Does an entry's column index lie inside `[0, bCols)`? -/
def colInRange (bCols : Int) (e : (Int × Int) × Int) : Bool :=
  decide (0 ≤ e.1.2) && decide (e.1.2 < bCols)

/-- Join chunks into a text, terminating each chunk with a newline. -/
def withNl (chunks : List (List Char)) : List Char :=
  chunks.foldr (fun c acc => c ++ '\n' :: acc) []

/-- The characters of a header line `<key>=<int>`. -/
def headerChunk (key : List Char) (i : Int) : List Char :=
  key ++ '=' :: intChars i

/-- The characters of a formatted entry line, without its newline. -/
def entryChunk (e : (Int × Int) × Int) : List Char :=
  '(' :: ((intChars e.1.1 ++ ',' :: ' ' :: (intChars e.1.2 ++ ',' :: ' ' :: intChars e.2)) ++ [')'])

/-! ## Dictionary lemmas -/

theorem lookupAL_insertAL (l : PyDict) (q p : Int × Int) (v : Int) :
    lookupAL (insertAL l q v) p = if q = p then some v else lookupAL l p := by
  induction l with
  | nil =>
    simp only [insertAL, lookupAL]
  | cons e t ih =>
    obtain ⟨k, w⟩ := e
    by_cases hkq : k = q
    · subst hkq
      simp only [insertAL, if_pos rfl, lookupAL]
      by_cases hkp : k = p <;> simp [hkp]
    · simp only [insertAL, if_neg hkq, lookupAL, ih]
      by_cases hkp : k = p
      · subst hkp
        have : ¬ q = k := fun h => hkq h.symm
        simp [this]
      · simp [hkp]

theorem lookupAL_eq_none (l : PyDict) (q : Int × Int) (h : q ∉ l.map Prod.fst) :
    lookupAL l q = none := by
  induction l with
  | nil => rfl
  | cons e t ih =>
    obtain ⟨k, w⟩ := e
    simp only [List.map_cons, List.mem_cons] at h
    push_neg at h
    have hk : ¬ k = q := fun hh => h.1 hh.symm
    simp [lookupAL, hk, ih h.2]

theorem mem_of_lookupAL (l : PyDict) (q : Int × Int) (v : Int)
    (h : lookupAL l q = some v) : (q, v) ∈ l := by
  induction l with
  | nil => simp [lookupAL] at h
  | cons e t ih =>
    obtain ⟨k, w⟩ := e
    by_cases hk : k = q
    · subst hk
      have hwv : w = v := by simpa [lookupAL] using h
      subst hwv
      exact List.mem_cons_self _ _
    · simp only [lookupAL, if_neg hk] at h
      exact List.mem_cons_of_mem _ (ih h)

theorem mem_insertAL (l : PyDict) (q : Int × Int) (v : Int) :
    ∀ e ∈ insertAL l q v, e = (q, v) ∨ e ∈ l := by
  induction l with
  | nil =>
    intro e he
    simp only [insertAL, List.mem_singleton] at he
    exact Or.inl he
  | cons f t ih =>
    obtain ⟨k, w⟩ := f
    intro e he
    by_cases hk : k = q
    · subst hk
      simp only [insertAL, if_pos] at he
      rcases List.mem_cons.mp he with he1 | he1
      · exact Or.inl he1
      · exact Or.inr (List.mem_cons_of_mem _ he1)
    · simp only [insertAL, if_neg hk] at he
      rcases List.mem_cons.mp he with he1 | he1
      · exact Or.inr (by simp [he1])
      · rcases ih e he1 with h1 | h1
        · exact Or.inl h1
        · exact Or.inr (List.mem_cons_of_mem _ h1)

theorem insertAL_not_mem (l : PyDict) (q : Int × Int) (v : Int)
    (h : q ∉ l.map Prod.fst) : insertAL l q v = l ++ [(q, v)] := by
  induction l with
  | nil => rfl
  | cons e t ih =>
    obtain ⟨k, w⟩ := e
    simp only [List.map_cons, List.mem_cons] at h
    push_neg at h
    have hk : ¬ k = q := fun hh => h.1 hh.symm
    simp [insertAL, hk, ih h.2]

theorem nodupKeys_cons (k : Int × Int) (v : Int) (t : PyDict) :
    NodupKeys ((k, v) :: t) ↔ k ∉ t.map Prod.fst ∧ NodupKeys t := by
  simp [NodupKeys]

theorem lookupAL_perm (l₁ l₂ : PyDict) (h : l₁.Perm l₂) (hnd : NodupKeys l₁)
    (q : Int × Int) : lookupAL l₁ q = lookupAL l₂ q := by
  induction h with
  | nil => rfl
  | cons x h ih =>
    obtain ⟨k, w⟩ := x
    rw [nodupKeys_cons] at hnd
    by_cases hk : k = q <;> simp [lookupAL, hk, ih hnd.2]
  | swap x y l =>
    obtain ⟨k1, w1⟩ := x
    obtain ⟨k2, w2⟩ := y
    rw [nodupKeys_cons] at hnd
    have h12 : ¬ k2 = k1 := by
      intro hh
      exact hnd.1 (by simp [hh])
    by_cases h1 : k1 = q
    · subst h1
      simp [lookupAL, h12]
    · by_cases h2 : k2 = q <;> simp [lookupAL, h1, h2]
  | trans h₁ h₂ ih₁ ih₂ =>
    have hnd₂ : NodupKeys _ := ((h₁.map Prod.fst).nodup_iff).mp hnd
    rw [ih₁ hnd, ih₂ hnd₂]

theorem foldl_insertAL_of_nodup (l : PyDict) :
    ∀ acc : PyDict, NodupKeys (acc ++ l) →
      l.foldl (fun a e => insertAL a e.1 e.2) acc = acc ++ l := by
  induction l with
  | nil =>
    intro acc _
    simp
  | cons e t ih =>
    intro acc h
    have hkey : e.1 ∉ acc.map Prod.fst := by
      have hnd := h
      unfold NodupKeys at hnd
      rw [List.map_append, List.nodup_append] at hnd
      intro hmem
      exact hnd.2.2 hmem (by simp)
    have hstep : insertAL acc e.1 e.2 = acc ++ [e] := by
      rw [insertAL_not_mem acc e.1 e.2 hkey]
    have h' : NodupKeys ((acc ++ [e]) ++ t) := by
      unfold NodupKeys at h ⊢
      simpa [List.append_assoc] using h
    calc (e :: t).foldl (fun a f => insertAL a f.1 f.2) acc
        = t.foldl (fun a f => insertAL a f.1 f.2) (acc ++ [e]) := by
          simp [List.foldl_cons, hstep]
      _ = (acc ++ [e]) ++ t := ih (acc ++ [e]) h'
      _ = acc ++ e :: t := by simp

theorem look0_insertAL (l : PyDict) (q p : Int × Int) (v : Int) :
    look0 (insertAL l q v) p = if q = p then v else look0 l p := by
  simp only [look0, lookupAL_insertAL]
  by_cases h : q = p <;> simp [h]

theorem look0_accumAdd (res : PyDict) (q : Int × Int) (x : Int) (p : Int × Int) :
    look0 (accumAdd res q x) p = if q = p then look0 res p + x else look0 res p := by
  unfold accumAdd
  cases h : lookupAL res q with
  | none =>
    rw [look0_insertAL]
    by_cases hqp : q = p
    · subst hqp
      simp [look0, h]
    · simp [hqp]
  | some old =>
    rw [look0_insertAL]
    by_cases hqp : q = p
    · subst hqp
      simp [look0, h]
    · simp [hqp]

theorem sumAt_cons (k : Int × Int) (v : Int) (t : PyDict) (q : Int × Int) :
    sumAt ((k, v) :: t) q = (if k = q then v else 0) + sumAt t q := by
  by_cases h : k = q <;> simp [sumAt, List.filter_cons, h]

theorem sumAt_eq_zero (l : PyDict) (q : Int × Int) (h : q ∉ l.map Prod.fst) :
    sumAt l q = 0 := by
  induction l with
  | nil => rfl
  | cons e t ih =>
    obtain ⟨k, w⟩ := e
    simp only [List.map_cons, List.mem_cons] at h
    push_neg at h
    have hk : ¬ k = q := fun hh => h.1 hh.symm
    rw [sumAt_cons, if_neg hk, ih h.2]
    simp

theorem sumAt_eq_look0 (l : PyDict) (q : Int × Int) (h : NodupKeys l) :
    sumAt l q = look0 l q := by
  induction l with
  | nil => rfl
  | cons e t ih =>
    obtain ⟨k, w⟩ := e
    rw [nodupKeys_cons] at h
    by_cases hk : k = q
    · subst hk
      rw [sumAt_cons, if_pos rfl, sumAt_eq_zero t k h.1]
      simp [look0, lookupAL]
    · rw [sumAt_cons, if_neg hk, ih h.2]
      simp [look0, lookupAL, hk]

theorem look0_addElems (b : PyDict) :
    ∀ a : PyDict, ∀ q : Int × Int,
      look0 (addElems a b) q = look0 a q + sumAt b q := by
  induction b with
  | nil =>
    intro a q
    simp [addElems, sumAt]
  | cons e t ih =>
    intro a q
    have hstep : addElems a (e :: t) = addElems (accumAdd a e.1 e.2) t := rfl
    rw [hstep, ih, look0_accumAdd]
    obtain ⟨k, w⟩ := e
    rw [sumAt_cons]
    by_cases hk : k = q
    · simp only [if_pos hk]
      omega
    · simp only [if_neg hk]
      omega

/-! ## List-sum helpers -/

theorem sum_map_add {α : Type} (l : List α) (f g : α → Int) :
    (l.map (fun x => f x + g x)).sum = (l.map f).sum + (l.map g).sum := by
  induction l with
  | nil => simp
  | cons x t ih =>
    simp only [List.map_cons, List.sum_cons]
    rw [ih]
    ring

theorem sum_map_congr {α : Type} (l : List α) (f g : α → Int)
    (h : ∀ x ∈ l, f x = g x) : (l.map f).sum = (l.map g).sum := by
  induction l with
  | nil => rfl
  | cons x t ih =>
    simp only [List.map_cons, List.sum_cons]
    rw [h x (List.mem_cons_self x t), ih (fun y hy => h y (List.mem_cons_of_mem x hy))]

theorem sum_map_zero {α : Type} (l : List α) (f : α → Int)
    (h : ∀ x ∈ l, f x = 0) : (l.map f).sum = 0 := by
  rw [sum_map_congr l f (fun _ => 0) h]
  simp

theorem sum_range_indicator (g : Int → Int) :
    ∀ (n : Nat) (kk : Int),
      ((List.range n).map (fun (c : Nat) => if (c : Int) = kk then g (c : Int) else 0)).sum =
        if 0 ≤ kk ∧ kk < (n : Int) then g kk else 0 := by
  intro n
  induction n with
  | zero =>
    intro kk
    rw [List.range_zero]
    rw [if_neg (by omega)]
    rfl
  | succ n ih =>
    intro kk
    rw [List.range_succ]
    simp only [List.map_append, List.sum_append, List.map_cons, List.map_nil,
      List.sum_cons, List.sum_nil]
    rw [ih]
    by_cases h : (n : Int) = kk
    · rw [if_neg (by omega), if_pos h, if_pos (by omega)]
      rw [h]
      ring
    · rw [if_neg h]
      by_cases h2 : 0 ≤ kk ∧ kk < (n : Int)
      · rw [if_pos h2, if_pos (by omega)]
        ring
      · rw [if_neg h2, if_neg (by omega)]
        ring

/-! ## Multiply lemmas -/

theorem look0_innerFold (bElems : PyDict) (row col value : Int) :
    ∀ (ks : List Nat) (res : PyDict) (q : Int × Int),
      look0 (ks.foldl (innerStep bElems row col value) res) q =
        look0 res q +
          (ks.map (fun (k : Nat) =>
            if (row, (k : Int)) = q then value * look0 bElems (col, (k : Int)) else 0)).sum := by
  intro ks
  induction ks with
  | nil =>
    intro res q
    simp
  | cons k t ih =>
    intro res q
    simp only [List.foldl_cons, List.map_cons, List.sum_cons]
    rw [ih]
    have hstep : look0 (innerStep bElems row col value res k) q =
        look0 res q + (if (row, (k : Int)) = q then value * look0 bElems (col, (k : Int)) else 0) := by
      unfold innerStep
      cases hb : lookupAL bElems (col, (k : Int)) with
      | none =>
        simp [look0, hb]
      | some bv =>
        rw [look0_accumAdd]
        by_cases hq : (row, (k : Int)) = q
        · rw [if_pos hq, if_pos hq]
          simp [look0, hb]
        · rw [if_neg hq, if_neg hq]
          ring
    rw [hstep]
    ring

theorem look0_mulFoldOuter (bCols : Int) (bElems : PyDict) :
    ∀ (a : PyDict) (res : PyDict) (q : Int × Int),
      look0 (a.foldl
          (fun res e => (List.range bCols.toNat).foldl (innerStep bElems e.1.1 e.1.2 e.2) res)
          res) q =
        look0 res q +
          (a.map (fun e =>
            ((List.range bCols.toNat).map (fun (k : Nat) =>
              if (e.1.1, (k : Int)) = q then e.2 * look0 bElems (e.1.2, (k : Int)) else 0)).sum)).sum := by
  intro a
  induction a with
  | nil =>
    intro res q
    simp
  | cons e t ih =>
    intro res q
    simp only [List.foldl_cons, List.map_cons, List.sum_cons]
    rw [ih, look0_innerFold]
    ring

theorem look0_mulElems (a : PyDict) (bCols : Int) (bElems : PyDict) (i kk : Int) :
    look0 (mulElems a bCols bElems) (i, kk) =
      (a.map (fun e =>
        if e.1.1 = i ∧ 0 ≤ kk ∧ kk < bCols then e.2 * look0 bElems (e.1.2, kk) else 0)).sum := by
  unfold mulElems
  rw [look0_mulFoldOuter]
  have h0 : look0 [] (i, kk) = 0 := rfl
  rw [h0, zero_add]
  apply sum_map_congr
  intro e _
  by_cases hr : e.1.1 = i
  · have hmapeq : ((List.range bCols.toNat).map (fun (k : Nat) =>
        if (e.1.1, (k : Int)) = (i, kk) then e.2 * look0 bElems (e.1.2, (k : Int)) else 0)) =
        ((List.range bCols.toNat).map (fun (k : Nat) =>
        if (k : Int) = kk then e.2 * look0 bElems (e.1.2, (k : Int)) else 0)) := by
      apply List.map_congr_left
      intro k _
      have : ((e.1.1, (k : Int)) = (i, kk)) = ((k : Int) = kk) := by
        apply propext
        constructor
        · intro hh
          exact (Prod.ext_iff.mp hh).2
        · intro hh
          rw [hr, hh]
      simp only [this]
    rw [hmapeq, sum_range_indicator (fun x => e.2 * look0 bElems (e.1.2, x)) bCols.toNat kk]
    have hiff : (0 ≤ kk ∧ kk < ((bCols.toNat : Nat) : Int)) = (e.1.1 = i ∧ 0 ≤ kk ∧ kk < bCols) := by
      apply propext
      constructor
      · intro hh
        refine ⟨hr, hh.1, ?_⟩
        omega
      · intro hh
        refine ⟨hh.2.1, ?_⟩
        omega
    simp only [hiff]
  · rw [if_neg (by tauto)]
    apply sum_map_zero
    intro k _
    rw [if_neg]
    intro hc
    exact hr (Prod.ext_iff.mp hc).1

theorem look0_out_of_bounds (B : SparseMatrix) (hB : InBounds B) (c kk : Int)
    (h : ¬(0 ≤ kk ∧ kk < B.num_cols)) : look0 B.elements (c, kk) = 0 := by
  cases hx : lookupAL B.elements (c, kk) with
  | none => simp [look0, hx]
  | some v =>
    have hmem := mem_of_lookupAL _ _ _ hx
    have := hB _ hmem
    exact absurd ⟨this.2.2.1, this.2.2.2⟩ h

theorem sum_entries_eq_sum_range (i : Int) (g : Int → Int) :
    ∀ (aE : PyDict) (n : Int), NodupKeys aE → (∀ e ∈ aE, 0 ≤ e.1.2 ∧ e.1.2 < n) →
      (aE.map (fun e => if e.1.1 = i then e.2 * g e.1.2 else 0)).sum =
        ((List.range n.toNat).map (fun (c : Nat) => look0 aE (i, (c : Int)) * g (c : Int))).sum := by
  intro aE
  induction aE with
  | nil =>
    intro n _ _
    simp only [List.map_nil, List.sum_nil]
    rw [sum_map_zero]
    intro c _
    have h0 : look0 [] (i, (c : Int)) = 0 := rfl
    rw [h0, zero_mul]
  | cons e t ih =>
    intro n hnd hb
    obtain ⟨⟨r, c0⟩, v⟩ := e
    rw [nodupKeys_cons] at hnd
    simp only [List.map_cons, List.sum_cons]
    rw [ih n hnd.2 (fun f hf => hb f (List.mem_cons_of_mem _ hf))]
    by_cases hr : r = i
    · subst hr
      have hbh := hb ((r, c0), v) (List.mem_cons_self _ _)
      simp only at hbh
      have hlt : look0 t (r, c0) = 0 := by
        simp [look0, lookupAL_eq_none t (r, c0) hnd.1]
      have hpoint : ∀ c ∈ List.range n.toNat,
          look0 (((r, c0), v) :: t) (r, (c : Int)) * g (c : Int) =
            look0 t (r, (c : Int)) * g (c : Int) +
              (if (c : Int) = c0 then v * g (c : Int) else 0) := by
        intro c _
        by_cases hc : (c : Int) = c0
        · rw [if_pos hc]
          have hkey : ((r, c0) : Int × Int) = (r, (c : Int)) := by rw [hc]
          have h1 : look0 (((r, c0), v) :: t) (r, (c : Int)) = v := by
            simp [look0, lookupAL, hkey]
          have h2 : look0 t (r, (c : Int)) = 0 := by
            rw [← hc] at hlt
            exact hlt
          rw [h1, h2]
          ring
        · have hkey : ¬ ((r, c0) : Int × Int) = (r, (c : Int)) := by
            intro hh
            exact hc ((Prod.ext_iff.mp hh).2).symm
          have h1 : look0 (((r, c0), v) :: t) (r, (c : Int)) = look0 t (r, (c : Int)) := by
            simp [look0, lookupAL, hkey]
          rw [h1, if_neg hc]
          ring
      rw [sum_map_congr _ _ _ hpoint, sum_map_add]
      have hrange := sum_range_indicator (fun x => v * g x) n.toNat c0
      rw [hrange]
      have hcc : 0 ≤ c0 ∧ c0 < ((n.toNat : Nat) : Int) := by omega
      rw [if_pos hcc, if_pos rfl]
      ring
    · rw [if_neg hr]
      have hpoint : ∀ c ∈ List.range n.toNat,
          look0 (((r, c0), v) :: t) (i, (c : Int)) * g (c : Int) =
            look0 t (i, (c : Int)) * g (c : Int) := by
        intro c _
        have hkey : ¬ ((r, c0) : Int × Int) = (i, (c : Int)) := by
          intro hh
          exact hr (Prod.ext_iff.mp hh).1
        simp [look0, lookupAL, hkey]
      rw [sum_map_congr _ _ _ hpoint]
      ring

/-! ## Decimal printing and parsing lemmas -/

theorem digit_char_facts : ∀ m, m < 10 →
    48 ≤ (Char.ofNat (48 + m)).toNat ∧ (Char.ofNat (48 + m)).toNat ≤ 57 ∧
      (Char.ofNat (48 + m)).toNat = 48 + m := by
  decide

theorem natDigits_ne_nil (n : Nat) : natDigits n ≠ [] := by
  unfold natDigits
  split
  · simp
  · simp

theorem natDigits_digits (n : Nat) : ∀ c ∈ natDigits n, 48 ≤ c.toNat ∧ c.toNat ≤ 57 := by
  induction n using Nat.strong_induction_on with
  | _ n ih =>
    unfold natDigits
    split
    · next h =>
      intro c hc
      rw [List.mem_singleton] at hc
      subst hc
      exact ⟨(digit_char_facts n h).1, (digit_char_facts n h).2.1⟩
    · next h =>
      intro c hc
      rw [List.mem_append] at hc
      rcases hc with hc | hc
      · exact ih (n / 10) (by omega) c hc
      · rw [List.mem_singleton] at hc
        subst hc
        have h10 : n % 10 < 10 := by omega
        exact ⟨(digit_char_facts _ h10).1, (digit_char_facts _ h10).2.1⟩

theorem natDigits_getLast (n : Nat) :
    ∃ d, (natDigits n).getLast? = some d ∧ 48 ≤ d.toNat ∧ d.toNat ≤ 57 := by
  unfold natDigits
  split
  · next h =>
    exact ⟨_, rfl, (digit_char_facts n h).1, (digit_char_facts n h).2.1⟩
  · next h =>
    have h10 : n % 10 < 10 := by omega
    exact ⟨_, List.getLast?_concat _, (digit_char_facts _ h10).1, (digit_char_facts _ h10).2.1⟩

theorem isDig_iff (c : Char) : isDig c = true ↔ (48 ≤ c.toNat ∧ c.toNat ≤ 57) := by
  simp [isDig]

theorem digitsUAux_digits (ds : List Char) :
    ∀ acc, (∀ c ∈ ds, isDig c = true) →
      digitsUAux ds acc = some (ds.foldl (fun a c => 10 * a + (c.toNat - 48)) acc) := by
  induction ds with
  | nil =>
    intro acc _
    rfl
  | cons c cs ih =>
    intro acc h
    have hc : isDig c = true := h c (List.mem_cons_self _ _)
    rw [digitsUAux.eq_def]
    simp only [hc, if_true, List.foldl_cons]
    exact ih _ (fun d hd => h d (List.mem_cons_of_mem _ hd))

theorem parseDigitsU_digits (ds : List Char) (h : ∀ c ∈ ds, isDig c = true) (hne : ds ≠ []) :
    parseDigitsU ds = some (ds.foldl (fun a c => 10 * a + (c.toNat - 48)) 0) := by
  cases ds with
  | nil => exact absurd rfl hne
  | cons c cs =>
    have hc : isDig c = true := h c (List.mem_cons_self _ _)
    simp only [parseDigitsU, hc, if_true, List.foldl_cons]
    rw [digitsUAux_digits cs _ (fun d hd => h d (List.mem_cons_of_mem _ hd))]
    simp

theorem val_natDigits (n : Nat) :
    (natDigits n).foldl (fun a c => 10 * a + (c.toNat - 48)) 0 = n := by
  induction n using Nat.strong_induction_on with
  | _ n ih =>
    unfold natDigits
    split
    · next h =>
      simp only [List.foldl_cons, List.foldl_nil]
      rw [(digit_char_facts n h).2.2]
      omega
    · next h =>
      rw [List.foldl_append]
      rw [ih (n / 10) (by omega)]
      simp only [List.foldl_cons, List.foldl_nil]
      rw [(digit_char_facts (n % 10) (by omega)).2.2]
      omega

theorem parseDigitsU_natDigits (n : Nat) : parseDigitsU (natDigits n) = some n := by
  rw [parseDigitsU_digits (natDigits n)
    (fun c hc => (isDig_iff c).mpr (natDigits_digits n c hc)) (natDigits_ne_nil n)]
  rw [val_natDigits]

theorem intChars_mem (i : Int) :
    ∀ c ∈ intChars i, (48 ≤ c.toNat ∧ c.toNat ≤ 57) ∨ c = '-' := by
  cases i with
  | ofNat n =>
    intro c hc
    exact Or.inl (natDigits_digits n c hc)
  | negSucc m =>
    intro c hc
    rcases List.mem_cons.mp hc with hc1 | hc1
    · exact Or.inr hc1
    · exact Or.inl (natDigits_digits _ c hc1)

theorem not_mem_intChars (d : Char) (hd : ¬ (48 ≤ d.toNat ∧ d.toNat ≤ 57)) (hd2 : d ≠ '-')
    (i : Int) : d ∉ intChars i := by
  intro hm
  rcases intChars_mem i d hm with h | h
  · exact hd h
  · exact hd2 h

theorem isPyWS_false_of_range (c : Char) (h48 : 48 ≤ c.toNat) (h57 : c.toNat ≤ 57) :
    isPyWS c = false := by
  simp only [isPyWS, Bool.or_eq_false_iff, decide_eq_false_iff_not]
  refine ⟨⟨⟨⟨⟨?_, ?_⟩, ?_⟩, ?_⟩, ?_⟩, ?_⟩ <;>
    · intro hh
      subst hh
      revert h48 h57
      decide

theorem intChars_head (i : Int) :
    ∃ c cs, intChars i = c :: cs ∧ isPyWS c = false := by
  cases i with
  | ofNat n =>
    cases hnd : natDigits n with
    | nil => exact absurd hnd (natDigits_ne_nil n)
    | cons c cs =>
      have hc := natDigits_digits n c (by rw [hnd]; exact List.mem_cons_self _ _)
      exact ⟨c, cs, hnd, isPyWS_false_of_range c hc.1 hc.2⟩
  | negSucc m =>
    exact ⟨'-', _, rfl, by decide⟩

theorem intChars_getLast (i : Int) :
    ∃ d, (intChars i).getLast? = some d ∧ isPyWS d = false := by
  cases i with
  | ofNat n =>
    obtain ⟨d, hd, h48, h57⟩ := natDigits_getLast n
    exact ⟨d, hd, isPyWS_false_of_range d h48 h57⟩
  | negSucc m =>
    obtain ⟨d, hd, h48, h57⟩ := natDigits_getLast (m + 1)
    refine ⟨d, ?_, isPyWS_false_of_range d h48 h57⟩
    show (('-' :: natDigits (m + 1)).getLast?) = some d
    have hsplit : ('-' :: natDigits (m + 1)) = ['-'] ++ natDigits (m + 1) := rfl
    rw [hsplit, List.getLast?_append_of_ne_nil _ (natDigits_ne_nil (m + 1))]
    exact hd

/-! ## Strip and split lemmas -/

theorem dropWhile_eq_self_of_head (l : List Char)
    (h : ∀ c ∈ l.head?, isPyWS c = false) : l.dropWhile isPyWS = l := by
  cases l with
  | nil => rfl
  | cons c t =>
    have hc : isPyWS c = false := h c rfl
    simp [List.dropWhile_cons, hc]

theorem stripChars_eq_self (l : List Char)
    (h1 : ∀ c ∈ l.head?, isPyWS c = false)
    (h2 : ∀ c ∈ l.getLast?, isPyWS c = false) : stripChars l = l := by
  unfold stripChars
  rw [dropWhile_eq_self_of_head l h1]
  rw [dropWhile_eq_self_of_head l.reverse
    (fun c hc => h2 c (by rwa [List.head?_reverse] at hc))]
  exact List.reverse_reverse l

theorem stripChars_cons_space (l : List Char) : stripChars (' ' :: l) = stripChars l := rfl

theorem stripChars_intChars (i : Int) : stripChars (intChars i) = intChars i := by
  obtain ⟨c, cs, hc, hws⟩ := intChars_head i
  obtain ⟨d, hd, hwd⟩ := intChars_getLast i
  apply stripChars_eq_self
  · intro x hx
    rw [hc] at hx
    have hxc : c = x := by simpa using hx
    rw [← hxc]
    exact hws
  · intro x hx
    rw [hd] at hx
    have hxd : d = x := by simpa using hx
    rw [← hxd]
    exact hwd

theorem pyIntChars_of_strip (l : List Char) (i : Int) (h : stripChars l = intChars i) :
    pyIntChars l = some i := by
  unfold pyIntChars
  rw [h]
  cases i with
  | ofNat n =>
    have hi : intChars (Int.ofNat n) = natDigits n := rfl
    rw [hi]
    cases hnd : natDigits n with
    | nil => exact absurd hnd (natDigits_ne_nil n)
    | cons c cs =>
      have hcd := natDigits_digits n c (by rw [hnd]; exact List.mem_cons_self _ _)
      split
      · next heq =>
        have hcm : c = '-' := (List.cons.injEq _ _ _ _ ▸ heq).1
        rw [hcm] at hcd
        exact absurd hcd.1 (by decide)
      · next heq =>
        have hcm : c = '+' := (List.cons.injEq _ _ _ _ ▸ heq).1
        rw [hcm] at hcd
        exact absurd hcd.1 (by decide)
      · next =>
        rw [← hnd, parseDigitsU_natDigits n]
        rfl
  | negSucc m =>
    have hi : intChars (Int.negSucc m) = '-' :: natDigits (m + 1) := rfl
    rw [hi]
    show (parseDigitsU (natDigits (m + 1))).map (fun n => -(n : Int)) = some (Int.negSucc m)
    rw [parseDigitsU_natDigits (m + 1)]
    rfl

theorem pyIntChars_intChars (i : Int) : pyIntChars (intChars i) = some i :=
  pyIntChars_of_strip _ i (stripChars_intChars i)

theorem pyIntChars_space_intChars (i : Int) : pyIntChars (' ' :: intChars i) = some i :=
  pyIntChars_of_strip _ i (by rw [stripChars_cons_space]; exact stripChars_intChars i)

theorem splitOnChar_not_mem (sep : Char) (l : List Char) (h : sep ∉ l) :
    splitOnChar sep l = [l] := by
  induction l with
  | nil => rfl
  | cons c cs ih =>
    have hc : ¬ c = sep := by
      intro hh
      exact h (by simp [hh])
    have hcs : sep ∉ cs := fun hm => h (List.mem_cons_of_mem _ hm)
    simp only [splitOnChar, if_neg hc, ih hcs]

theorem splitOnChar_append (sep : Char) (a rest : List Char) (h : sep ∉ a) :
    splitOnChar sep (a ++ sep :: rest) = a :: splitOnChar sep rest := by
  induction a with
  | nil =>
    simp [splitOnChar]
  | cons c t ih =>
    have hc : ¬ c = sep := by
      intro hh
      exact h (by simp [hh])
    have ht : sep ∉ t := fun hm => h (List.mem_cons_of_mem _ hm)
    simp only [List.cons_append, splitOnChar, if_neg hc, List.append_eq, ih ht]

theorem withNl_cons (c : List Char) (rest : List (List Char)) :
    withNl (c :: rest) = c ++ '\n' :: withNl rest := rfl

theorem withNl_append (xs ys : List (List Char)) :
    withNl (xs ++ ys) = withNl xs ++ withNl ys := by
  induction xs with
  | nil => rfl
  | cons x t ih =>
    simp only [List.cons_append, withNl_cons, ih, List.append_assoc, List.cons_append]

theorem splitOnChar_withNl (chunks : List (List Char)) (h : ∀ c ∈ chunks, '\n' ∉ c) :
    splitOnChar '\n' (withNl chunks) = chunks ++ [[]] := by
  induction chunks with
  | nil => rfl
  | cons c rest ih =>
    rw [withNl_cons, splitOnChar_append '\n' c _ (h c (List.mem_cons_self _ _)),
      ih (fun d hd => h d (List.mem_cons_of_mem _ hd))]
    rfl

theorem dropLastEmpty_concat (ps : List (List Char)) : dropLastEmpty (ps ++ [[]]) = ps := by
  unfold dropLastEmpty
  rw [List.getLast?_concat]
  simp

/-! ## Formatter output characterization -/

theorem data_append (a b : String) : (a ++ b).data = a.data ++ b.data := rfl

theorem intChars_ne_nil (i : Int) : intChars i ≠ [] := by
  cases i with
  | ofNat n => exact natDigits_ne_nil n
  | negSucc m => simp [intChars]

theorem getLast?_append_right {α : Type} (l1 l2 : List α) (d : α)
    (h : l2.getLast? = some d) : (l1 ++ l2).getLast? = some d := by
  cases l2 with
  | nil => simp at h
  | cons x xs =>
    rw [List.getLast?_append_of_ne_nil _ (by simp)]
    exact h

theorem entryStr_data (e : (Int × Int) × Int) :
    (entryStr e).data = entryChunk e ++ ['\n'] := by
  unfold entryStr entryChunk strOfInt
  simp only [data_append]
  simp [List.append_assoc]

theorem header_data (m : SparseMatrix) :
    ("rows=" ++ strOfInt m.num_rows ++ "\n" ++ "cols=" ++ strOfInt m.num_cols ++ "\n").data =
      withNl [headerChunk ['r', 'o', 'w', 's'] m.num_rows,
        headerChunk ['c', 'o', 'l', 's'] m.num_cols] := by
  unfold withNl headerChunk strOfInt
  simp only [data_append]
  simp [List.append_assoc]

theorem foldl_entryStr_data (es : List ((Int × Int) × Int)) :
    ∀ init : String, (es.foldl (fun out e => out ++ entryStr e) init).data =
      init.data ++ withNl (es.map entryChunk) := by
  induction es with
  | nil =>
    intro init
    simp [withNl]
  | cons e t ih =>
    intro init
    rw [List.foldl_cons, ih, data_append, entryStr_data]
    rw [List.map_cons, withNl_cons]
    simp [List.append_assoc]

theorem matStr_data (m : SparseMatrix) :
    (matStr m).data =
      withNl (headerChunk ['r', 'o', 'w', 's'] m.num_rows ::
        headerChunk ['c', 'o', 'l', 's'] m.num_cols ::
        (sortEntries m.elements).map entryChunk) := by
  unfold matStr
  rw [foldl_entryStr_data, header_data]
  have hsplit : (headerChunk ['r', 'o', 'w', 's'] m.num_rows ::
      headerChunk ['c', 'o', 'l', 's'] m.num_cols ::
      (sortEntries m.elements).map entryChunk) =
      [headerChunk ['r', 'o', 'w', 's'] m.num_rows,
        headerChunk ['c', 'o', 'l', 's'] m.num_cols] ++
        (sortEntries m.elements).map entryChunk := rfl
  rw [hsplit, withNl_append]

theorem nl_not_mem_headerChunk (key : List Char) (hk : '\n' ∉ key) (i : Int) :
    '\n' ∉ headerChunk key i := by
  unfold headerChunk
  intro hm
  rw [List.mem_append] at hm
  rcases hm with hm | hm
  · exact hk hm
  · rcases List.mem_cons.mp hm with h | h
    · exact absurd h (by decide)
    · exact not_mem_intChars '\n' (by decide) (by decide) i h

theorem nl_not_mem_entryChunk (e : (Int × Int) × Int) : '\n' ∉ entryChunk e := by
  unfold entryChunk
  intro hm
  simp only [List.mem_cons, List.mem_append, List.mem_singleton] at hm
  have hA := not_mem_intChars '\n' (by decide) (by decide) e.1.1
  have hB := not_mem_intChars '\n' (by decide) (by decide) e.1.2
  have hC := not_mem_intChars '\n' (by decide) (by decide) e.2
  have h1 : ¬ ('\n' : Char) = '(' := by decide
  have h2 : ¬ ('\n' : Char) = ')' := by decide
  have h3 : ¬ ('\n' : Char) = ',' := by decide
  have h4 : ¬ ('\n' : Char) = ' ' := by decide
  tauto

/-! ## Parsing the formatter output -/

theorem headerChunk_strip (key : List Char) (hne : key ≠ [])
    (hhead : ∀ c ∈ key.head?, isPyWS c = false) (i : Int) :
    stripChars (headerChunk key i) = headerChunk key i := by
  apply stripChars_eq_self
  · intro c hc
    unfold headerChunk at hc
    cases key with
    | nil => exact absurd rfl hne
    | cons k0 kt =>
      have hh : ((k0 :: kt) ++ '=' :: intChars i).head? = some k0 := rfl
      rw [hh] at hc
      have hck : k0 = c := by simpa using hc
      rw [← hck]
      exact hhead k0 rfl
  · intro c hc
    unfold headerChunk at hc
    obtain ⟨d, hd, hwd⟩ := intChars_getLast i
    have h2 : ('=' :: intChars i).getLast? = some d := by
      have hs : ('=' :: intChars i) = ['='] ++ intChars i := rfl
      rw [hs]
      exact getLast?_append_right _ _ _ hd
    have h1 : (key ++ '=' :: intChars i).getLast? = some d :=
      getLast?_append_right _ _ _ h2
    rw [h1] at hc
    have hcd : d = c := by simpa using hc
    rw [← hcd]
    exact hwd

theorem headerNum_headerChunk (key : List Char) (hne : key ≠ [])
    (hhead : ∀ c ∈ key.head?, isPyWS c = false) (hkeq : '=' ∉ key) (i : Int) :
    headerNum ⟨headerChunk key i⟩ = some i := by
  unfold headerNum
  have hdata : ((⟨headerChunk key i⟩ : String)).data = headerChunk key i := rfl
  rw [hdata, headerChunk_strip key hne hhead i]
  have hsplit : splitOnChar '=' (headerChunk key i) = [key, intChars i] := by
    unfold headerChunk
    rw [splitOnChar_append '=' key _ hkeq,
      splitOnChar_not_mem '=' (intChars i) (not_mem_intChars '=' (by decide) (by decide) i)]
  rw [hsplit]
  show pyIntChars (intChars i) = some i
  exact pyIntChars_intChars i

theorem comma_not_mem_intChars (i : Int) : ',' ∉ intChars i :=
  not_mem_intChars ',' (by decide) (by decide) i

theorem entryChunk_getLast (e : (Int × Int) × Int) :
    (entryChunk e).getLast? = some ')' := by
  unfold entryChunk
  have hs : ('(' :: ((intChars e.1.1 ++ ',' :: ' ' ::
        (intChars e.1.2 ++ ',' :: ' ' :: intChars e.2)) ++ [')'])) =
      ('(' :: (intChars e.1.1 ++ ',' :: ' ' ::
        (intChars e.1.2 ++ ',' :: ' ' :: intChars e.2))) ++ [')'] := by
    simp
  rw [hs, List.getLast?_concat]

theorem entryChunk_strip (e : (Int × Int) × Int) :
    stripChars (entryChunk e) = entryChunk e := by
  apply stripChars_eq_self
  · intro c hc
    have hh : (entryChunk e).head? = some '(' := rfl
    rw [hh] at hc
    have hcc : '(' = c := by simpa using hc
    rw [← hcc]
    decide
  · intro c hc
    rw [entryChunk_getLast e] at hc
    have hcc : ')' = c := by simpa using hc
    rw [← hcc]
    decide

theorem parseEntryLine_entryChunk (acc : PyDict) (e : (Int × Int) × Int) :
    parseEntryLine acc ⟨entryChunk e⟩ = some (insertAL acc e.1 e.2) := by
  unfold parseEntryLine
  have hdata : ((⟨entryChunk e⟩ : String)).data = entryChunk e := rfl
  rw [hdata, entryChunk_strip e]
  rw [if_neg (by simp [entryChunk])]
  have hcond : ((entryChunk e).head? = some '(' &&
      (entryChunk e).getLast? = some ')') = true := by
    rw [entryChunk_getLast]
    simp [entryChunk]
  rw [if_pos hcond]
  have hint : pyInterior (entryChunk e) =
      intChars e.1.1 ++ ',' :: ' ' :: (intChars e.1.2 ++ ',' :: ' ' :: intChars e.2) := by
    unfold pyInterior entryChunk
    rw [show (('(' :: ((intChars e.1.1 ++ ',' :: ' ' ::
        (intChars e.1.2 ++ ',' :: ' ' :: intChars e.2)) ++ [')'])).drop 1) =
        (intChars e.1.1 ++ ',' :: ' ' ::
          (intChars e.1.2 ++ ',' :: ' ' :: intChars e.2)) ++ [')'] from rfl]
    exact List.dropLast_concat
  rw [hint]
  have hno2 : ',' ∉ (' ' :: intChars e.1.2) := by
    intro hm
    rcases List.mem_cons.mp hm with h | h
    · exact absurd h (by decide)
    · exact comma_not_mem_intChars _ h
  have hno3 : ',' ∉ (' ' :: intChars e.2) := by
    intro hm
    rcases List.mem_cons.mp hm with h | h
    · exact absurd h (by decide)
    · exact comma_not_mem_intChars _ h
  have hsplit : splitOnChar ','
      (intChars e.1.1 ++ ',' :: ' ' :: (intChars e.1.2 ++ ',' :: ' ' :: intChars e.2)) =
      [intChars e.1.1, ' ' :: intChars e.1.2, ' ' :: intChars e.2] := by
    rw [splitOnChar_append ',' _ _ (comma_not_mem_intChars e.1.1)]
    have hre : (' ' :: (intChars e.1.2 ++ ',' :: ' ' :: intChars e.2)) =
        (' ' :: intChars e.1.2) ++ ',' :: (' ' :: intChars e.2) := by
      simp
    rw [hre, splitOnChar_append ',' _ _ hno2, splitOnChar_not_mem ',' _ hno3]
  rw [hsplit]
  show (match pyIntChars (intChars e.1.1), pyIntChars (' ' :: intChars e.1.2),
      pyIntChars (' ' :: intChars e.2) with
    | some r, some cc, some v => some (insertAL acc (r, cc) v)
    | _, _, _ => none) = some (insertAL acc e.1 e.2)
  rw [pyIntChars_intChars, pyIntChars_space_intChars, pyIntChars_space_intChars]

theorem pyReadLines_matStr (m : SparseMatrix) :
    pyReadLines (matStr m) =
      (⟨headerChunk ['r', 'o', 'w', 's'] m.num_rows⟩ : String) ::
        (⟨headerChunk ['c', 'o', 'l', 's'] m.num_cols⟩ : String) ::
        (sortEntries m.elements).map (fun e => (⟨entryChunk e⟩ : String)) := by
  have hn : ∀ c ∈ (headerChunk ['r', 'o', 'w', 's'] m.num_rows ::
      headerChunk ['c', 'o', 'l', 's'] m.num_cols ::
      (sortEntries m.elements).map entryChunk), '\n' ∉ c := by
    intro c hc
    rcases List.mem_cons.mp hc with h | h
    · rw [h]
      exact nl_not_mem_headerChunk _ (by decide) _
    rcases List.mem_cons.mp h with h | h
    · rw [h]
      exact nl_not_mem_headerChunk _ (by decide) _
    · rw [List.mem_map] at h
      obtain ⟨e, _, rfl⟩ := h
      exact nl_not_mem_entryChunk e
  unfold pyReadLines
  rw [matStr_data, splitOnChar_withNl _ hn, dropLastEmpty_concat]
  simp [List.map_map, Function.comp]

theorem foldlM_entryChunks (es : List ((Int × Int) × Int)) :
    ∀ acc : PyDict,
      (es.map (fun e => ((⟨entryChunk e⟩ : String)))).foldlM parseEntryLine acc =
        some (es.foldl (fun a e => insertAL a e.1 e.2) acc) := by
  induction es with
  | nil =>
    intro acc
    rfl
  | cons e t ih =>
    intro acc
    rw [List.map_cons, List.foldlM_cons, parseEntryLine_entryChunk]
    show (t.map (fun e => ((⟨entryChunk e⟩ : String)))).foldlM parseEntryLine
      (insertAL acc e.1 e.2) = _
    rw [ih, List.foldl_cons]

theorem loadMatrixStr_matStr (m : SparseMatrix) :
    loadMatrixStr (matStr m) =
      some ⟨m.num_rows, m.num_cols,
        (sortEntries m.elements).foldl (fun a e => insertAL a e.1 e.2) []⟩ := by
  have hro : ∀ c ∈ (['r', 'o', 'w', 's'] : List Char).head?, isPyWS c = false := by
    intro c hc
    have h : 'r' = c := by simpa using hc
    rw [← h]
    decide
  have hco : ∀ c ∈ (['c', 'o', 'l', 's'] : List Char).head?, isPyWS c = false := by
    intro c hc
    have h : 'c' = c := by simpa using hc
    rw [← h]
    decide
  unfold loadMatrixStr
  rw [pyReadLines_matStr]
  simp only [loadMatrix, headerNum_headerChunk _ (by decide) hro (by decide),
    headerNum_headerChunk _ (by decide) hco (by decide), foldlM_entryChunks]

theorem sortEntries_perm (l : PyDict) : (sortEntries l).Perm l :=
  List.perm_insertionSort entryLe l

theorem nodupKeys_sortEntries (l : PyDict) (h : NodupKeys l) : NodupKeys (sortEntries l) := by
  unfold NodupKeys at h ⊢
  exact (((sortEntries_perm l).map Prod.fst).nodup_iff).mpr h

theorem lookup_roundTrip (l : PyDict) (h : NodupKeys l) (q : Int × Int) :
    lookupAL ((sortEntries l).foldl (fun a e => insertAL a e.1 e.2) []) q = lookupAL l q := by
  have hnds : NodupKeys (sortEntries l) := nodupKeys_sortEntries l h
  rw [foldl_insertAL_of_nodup (sortEntries l) [] (by simpa using hnds)]
  rw [List.nil_append]
  exact lookupAL_perm _ _ (sortEntries_perm l) hnds q

theorem string_ext (a b : String) (h : a.data = b.data) : a = b := by
  cases a
  cases b
  exact congrArg String.mk h

theorem join_map_data (es : List ((Int × Int) × Int)) :
    ((es.map (fun e => entryChunk e ++ ['\n'])).flatten) = withNl (es.map entryChunk) := by
  induction es with
  | nil => rfl
  | cons e t ih =>
    simp only [List.map_cons, List.flatten_cons, ih, withNl_cons]
    simp [List.append_assoc]

theorem foldl_join_data (l : List String) :
    ∀ init : String, (l.foldl (· ++ ·) init).data = init.data ++ (l.map String.data).flatten := by
  induction l with
  | nil =>
    intro init
    simp
  | cons s t ih =>
    intro init
    rw [List.foldl_cons, ih, data_append]
    simp [List.append_assoc]

theorem join_data (l : List String) : (String.join l).data = (l.map String.data).flatten := by
  unfold String.join
  rw [foldl_join_data]
  rfl

/-! ## Failure-propagation lemmas for the parser -/

theorem parseEntryLine_none_of_bad (line : String) (h : entryLineOk line = false) :
    ∀ acc, parseEntryLine acc line = none := by
  intro acc
  unfold entryLineOk at h
  unfold parseEntryLine
  rw [Bool.or_eq_false_iff] at h
  obtain ⟨h1, h2⟩ := h
  rw [if_neg (by simpa using h1)]
  by_cases hc : ((stripChars line.data).head? = some '(' &&
      (stripChars line.data).getLast? = some ')') = true
  · rw [if_pos hc]
    rw [Bool.and_eq_false_iff] at h2
    rcases h2 with h2 | h2
    · rw [hc] at h2
      simp at h2
    · split
      · next a b c heq =>
        rw [heq] at h2
        cases ha : pyIntChars a with
        | none => rfl
        | some x =>
          cases hb : pyIntChars b with
          | none => rfl
          | some y =>
            cases hcz : pyIntChars c with
            | none => rfl
            | some z =>
              exfalso
              simp [ha, hb, hcz] at h2
      · next => rfl
  · rw [if_neg hc]

theorem foldlM_none (bad : String) (hbad : ∀ acc, parseEntryLine acc bad = none) :
    ∀ (rest : List String) (acc : PyDict), bad ∈ rest →
      rest.foldlM parseEntryLine acc = none := by
  intro rest
  induction rest with
  | nil =>
    intro acc h
    simp at h
  | cons l t ih =>
    intro acc h
    rw [List.foldlM_cons]
    rcases List.mem_cons.mp h with h1 | h1
    · rw [← h1, hbad acc]
      rfl
    · cases hp : parseEntryLine acc l with
      | none => rfl
      | some acc2 =>
        show t.foldlM parseEntryLine acc2 = none
        exact ih acc2 h1

theorem loadMatrix_cons_cons (l0 l1 : String) (rest : List String) :
    loadMatrix (l0 :: l1 :: rest) =
      (match headerNum l0, headerNum l1 with
      | some r, some c =>
        (match rest.foldlM parseEntryLine [] with
        | some elems => some ⟨r, c, elems⟩
        | none => none)
      | _, _ => none) := rfl

theorem loadMatrix_header_none (l0 l1 : String) (rest : List String)
    (h : headerNum l0 = none ∨ headerNum l1 = none) :
    loadMatrix (l0 :: l1 :: rest) = none := by
  rw [loadMatrix_cons_cons]
  rcases h with h | h
  · rw [h]
  · rw [h]
    cases h0 : headerNum l0 <;> rfl

theorem loadMatrix_entry_none (l0 l1 : String) (rest : List String) (bad : String)
    (hmem : bad ∈ rest) (hbad : entryLineOk bad = false) :
    loadMatrix (l0 :: l1 :: rest) = none := by
  rw [loadMatrix_cons_cons]
  cases h0 : headerNum l0 with
  | none => rfl
  | some r =>
    cases h1 : headerNum l1 with
    | none => rfl
    | some c =>
      rw [foldlM_none bad (parseEntryLine_none_of_bad bad hbad) rest [] hmem]

/-! ## Lemmas about multiply and out-of-range columns -/

theorem lookupAL_filter_col (l : PyDict) (bCols : Int) (col : Int) (k : Nat)
    (hk : k < bCols.toNat) :
    lookupAL (l.filter (colInRange bCols)) (col, (k : Int)) =
      lookupAL l (col, (k : Int)) := by
  induction l with
  | nil => rfl
  | cons e t ih =>
    obtain ⟨⟨r, c⟩, v⟩ := e
    rw [List.filter_cons]
    by_cases hkey : ((r, c) : Int × Int) = (col, (k : Int))
    · have hc : c = (k : Int) := (Prod.ext_iff.mp hkey).2
      have hkeep : colInRange bCols ((r, c), v) = true := by
        unfold colInRange
        rw [hc]
        simp only [Bool.and_eq_true, decide_eq_true_iff]
        omega
      rw [if_pos hkeep]
      simp [lookupAL, hkey]
    · by_cases hkeep : colInRange bCols ((r, c), v) = true
      · rw [if_pos hkeep]
        simp only [lookupAL, if_neg hkey]
        exact ih
      · rw [if_neg hkeep]
        have hstep : lookupAL (((r, c), v) :: t) (col, (k : Int)) =
            lookupAL t (col, (k : Int)) := by
          simp [lookupAL, hkey]
        rw [hstep]
        exact ih

theorem innerFold_filter (bCols : Int) (bElems : PyDict) (row col value : Int) :
    ∀ (ks : List Nat), (∀ k ∈ ks, k < bCols.toNat) → ∀ res : PyDict,
      ks.foldl (innerStep (bElems.filter (colInRange bCols)) row col value) res =
        ks.foldl (innerStep bElems row col value) res := by
  intro ks
  induction ks with
  | nil =>
    intro _ res
    rfl
  | cons k t ih =>
    intro hks res
    rw [List.foldl_cons, List.foldl_cons]
    have hstep : innerStep (bElems.filter (colInRange bCols)) row col value res k =
        innerStep bElems row col value res k := by
      unfold innerStep
      rw [lookupAL_filter_col bElems bCols col k (hks k (List.mem_cons_self _ _))]
    rw [hstep]
    exact ih (fun j hj => hks j (List.mem_cons_of_mem _ hj)) _

theorem mulElems_filter (a : PyDict) (bCols : Int) (bElems : PyDict) :
    mulElems a bCols (bElems.filter (colInRange bCols)) = mulElems a bCols bElems := by
  unfold mulElems
  have hcong : ∀ (l : PyDict) (res : PyDict),
      l.foldl (fun res e => (List.range bCols.toNat).foldl
        (innerStep (bElems.filter (colInRange bCols)) e.1.1 e.1.2 e.2) res) res =
      l.foldl (fun res e => (List.range bCols.toNat).foldl
        (innerStep bElems e.1.1 e.1.2 e.2) res) res := by
    intro l
    induction l with
    | nil =>
      intro res
      rfl
    | cons e t ih =>
      intro res
      rw [List.foldl_cons, List.foldl_cons,
        innerFold_filter bCols bElems e.1.1 e.1.2 e.2 _ (fun k hk => List.mem_range.mp hk) res]
      exact ih _
  exact hcong a []

theorem mem_accumAdd (res : PyDict) (q : Int × Int) (x : Int) (e : (Int × Int) × Int)
    (he : e ∈ accumAdd res q x) : e.1 = q ∨ e ∈ res := by
  unfold accumAdd at he
  cases h : lookupAL res q with
  | some old =>
    rw [h] at he
    rcases mem_insertAL res q (old + x) e he with h1 | h1
    · left
      rw [h1]
    · right
      exact h1
  | none =>
    rw [h] at he
    rcases mem_insertAL res q x e he with h1 | h1
    · left
      rw [h1]
    · right
      exact h1

theorem mulElems_keys_in_range (a : PyDict) (bCols : Int) (bElems : PyDict) :
    ∀ e ∈ mulElems a bCols bElems, 0 ≤ e.1.2 ∧ e.1.2 < bCols := by
  have hinner : ∀ (ks : List Nat), (∀ k ∈ ks, k < bCols.toNat) →
      ∀ (row col value : Int) (res : PyDict),
      (∀ e ∈ res, 0 ≤ e.1.2 ∧ e.1.2 < bCols) →
      ∀ e ∈ ks.foldl (innerStep bElems row col value) res, 0 ≤ e.1.2 ∧ e.1.2 < bCols := by
    intro ks
    induction ks with
    | nil =>
      intro _ row col value res hres e he
      exact hres e he
    | cons k t ih =>
      intro hks row col value res hres e he
      rw [List.foldl_cons] at he
      refine ih (fun j hj => hks j (List.mem_cons_of_mem _ hj)) row col value _ ?_ e he
      intro f hf
      unfold innerStep at hf
      cases hb : lookupAL bElems (col, (k : Int)) with
      | none =>
        rw [hb] at hf
        exact hres f hf
      | some bv =>
        rw [hb] at hf
        rcases mem_accumAdd _ _ _ f hf with h1 | h1
        · have hk := hks k (List.mem_cons_self _ _)
          rw [h1]
          constructor
          · simp
          · show (k : Int) < bCols
            omega
        · exact hres f h1
  have houter : ∀ (l : PyDict) (res : PyDict),
      (∀ e ∈ res, 0 ≤ e.1.2 ∧ e.1.2 < bCols) →
      ∀ e ∈ l.foldl (fun res e => (List.range bCols.toNat).foldl
          (innerStep bElems e.1.1 e.1.2 e.2) res) res,
        0 ≤ e.1.2 ∧ e.1.2 < bCols := by
    intro l
    induction l with
    | nil =>
      intro res hres e he
      exact hres e he
    | cons f t ih =>
      intro res hres e he
      rw [List.foldl_cons] at he
      exact ih _ (hinner _ (fun k hk => List.mem_range.mp hk) f.1.1 f.1.2 f.2 res hres) e he
  intro e he
  unfold mulElems at he
  exact houter a [] (by intro f hf; simp at hf) e he

/-! ## Heap frame lemmas -/

theorem heap_get?_append (h : Heap) (obj : PyObj) (i : Nat) (hi : i < h.length) :
    (h ++ [obj]).get? i = h.get? i := by
  rw [List.get?_eq_getElem?, List.get?_eq_getElem?, List.getElem?_append_left hi]

theorem hSet_get?_ne (h : Heap) (r : Nat) (q : Int × Int) (v : Int) (i : Nat) (hne : r ≠ i) :
    (hSet h r q v).get? i = h.get? i := by
  unfold hSet
  cases hr : h.get? r with
  | none => rfl
  | some A =>
    rw [List.get?_eq_getElem?, List.get?_eq_getElem?, List.getElem?_set_ne hne]

/-! ## Claim theorems -/

/-- C1: for matrices `A`, `B` whose stored entries all lie within their
declared dimensions (`InBounds`), whose element dicts have unique keys (as
every Python dict does), and with `A.num_cols = B.num_rows`, `multiply A B`
succeeds with dimensions `(A.num_rows, B.num_cols)` and its `get_element i k`
is the dot product over `c ∈ [0, A.num_cols)` of `A[i,c] * B[c,k]`, for all
integer `i`, `k`; in particular the spec's example `A = 2×2 {(0,0):2,(0,1):3}`
times `B = 2×1 {(0,0):1,(1,0):4}` yields exactly the element mapping
`{(0,0): 14}`. -/
theorem claim_C1 (A B : SparseMatrix) (hdim : A.num_cols = B.num_rows)
    (hA : InBounds A) (hB : InBounds B) (hnd : NodupKeys A.elements) :
    (∃ C, multiply A B = some C ∧ C.num_rows = A.num_rows ∧ C.num_cols = B.num_cols ∧
      ∀ i k : Int, getElement C i k =
        ((List.range A.num_cols.toNat).map
          (fun (c : Nat) => getElement A i (c : Int) * getElement B (c : Int) k)).sum) ∧
    multiply ⟨2, 2, [((0, 0), 2), ((0, 1), 3)]⟩ ⟨2, 1, [((0, 0), 1), ((1, 0), 4)]⟩ =
      some ⟨2, 1, [((0, 0), 14)]⟩ := by
  constructor
  · refine ⟨⟨A.num_rows, B.num_cols, mulElems A.elements B.num_cols B.elements⟩, ?_, rfl, rfl, ?_⟩
    · unfold multiply
      rw [if_neg (by omega)]
    · intro i k
      show look0 (mulElems A.elements B.num_cols B.elements) (i, k) = _
      rw [look0_mulElems]
      by_cases hk : 0 ≤ k ∧ k < B.num_cols
      · have h1 : (A.elements.map (fun e =>
            if e.1.1 = i ∧ 0 ≤ k ∧ k < B.num_cols then e.2 * look0 B.elements (e.1.2, k)
            else 0)).sum =
            (A.elements.map (fun e =>
              if e.1.1 = i then e.2 * look0 B.elements (e.1.2, k) else 0)).sum := by
          apply sum_map_congr
          intro e _
          by_cases hr : e.1.1 = i
          · rw [if_pos ⟨hr, hk⟩, if_pos hr]
          · rw [if_neg (by tauto), if_neg hr]
        rw [h1]
        have h2 := sum_entries_eq_sum_range i (fun x => look0 B.elements (x, k)) A.elements
          A.num_cols hnd (fun e he => ⟨(hA e he).2.2.1, (hA e he).2.2.2⟩)
        rw [h2]
        apply sum_map_congr
        intro c _
        rfl
      · have hzero : ∀ e ∈ A.elements,
            (if e.1.1 = i ∧ 0 ≤ k ∧ k < B.num_cols then e.2 * look0 B.elements (e.1.2, k)
              else 0) = 0 := by
          intro e _
          rw [if_neg (by tauto)]
        rw [sum_map_zero _ _ hzero]
        symm
        apply sum_map_zero
        intro c _
        have hb0 : getElement B (c : Int) k = 0 := look0_out_of_bounds B hB _ k hk
        rw [hb0, mul_zero]
  · decide

/-- C1 witness: the hypotheses hold and the conclusion follows at the
spec's own 2×2 by 2×1 example. -/
theorem claim_C1_witness :
    ((⟨2, 2, [((0, 0), 2), ((0, 1), 3)]⟩ : SparseMatrix).num_cols =
      (⟨2, 1, [((0, 0), 1), ((1, 0), 4)]⟩ : SparseMatrix).num_rows) ∧
    InBounds ⟨2, 2, [((0, 0), 2), ((0, 1), 3)]⟩ ∧
    InBounds ⟨2, 1, [((0, 0), 1), ((1, 0), 4)]⟩ ∧
    NodupKeys ([((0, 0), 2), ((0, 1), 3)] : PyDict) ∧
    multiply ⟨2, 2, [((0, 0), 2), ((0, 1), 3)]⟩ ⟨2, 1, [((0, 0), 1), ((1, 0), 4)]⟩ =
      some ⟨2, 1, [((0, 0), 14)]⟩ :=
  ⟨by decide, by decide, by decide, by decide,
    (claim_C1 ⟨2, 2, [((0, 0), 2), ((0, 1), 3)]⟩ ⟨2, 1, [((0, 0), 1), ((1, 0), 4)]⟩
      (by decide) (by decide) (by decide) (by decide)).2⟩

/-- C2 counterexample: the claim says a first line with a wrong key
(`size=3`) or with text after the first `=` that is not a signed integer
(`rows=5=6`) is rejected; the code accepts both, because `split('=')[1]`
never looks at the key and takes only the text between the first and
second `=`. -/
theorem claim_C2_counterexample :
    loadMatrix ["size=3", "cols=2"] = some ⟨3, 2, []⟩ ∧
    loadMatrix ["rows=5=6", "cols=2"] = some ⟨5, 2, []⟩ :=
  ⟨by decide, by decide⟩

/-- C2 (amended): construction from a file fails when line 1 or line 2,
after stripping, either contains no `=` or has text between the first and
second `=` that is not a valid signed integer (`headerNum` returns `none`);
the key before the `=` is never validated and text after a second `=` is
ignored, so `size=3` is accepted with `num_rows = 3` and `rows=5=6` is
accepted with `num_rows = 5`. -/
theorem claim_C2 (l0 l1 : String) (rest : List String) :
    ((headerNum l0 = none ∨ headerNum l1 = none) → loadMatrix (l0 :: l1 :: rest) = none) ∧
    loadMatrix ["size=3", "cols=2"] = some ⟨3, 2, []⟩ ∧
    loadMatrix ["rows=5=6", "cols=2"] = some ⟨5, 2, []⟩ :=
  ⟨loadMatrix_header_none l0 l1 rest, by decide, by decide⟩

/-- C2 witness: a first line with no `=` at all makes `headerNum` fail and
construction return `none`. -/
theorem claim_C2_witness :
    (headerNum "rows" = none ∨ headerNum "cols=2" = none) ∧
    loadMatrix ["rows", "cols=2"] = none :=
  ⟨Or.inl (by decide), (claim_C2 "rows" "cols=2" []).1 (Or.inl (by decide))⟩

/-- C3: for every matrix whose element dict has unique keys (as every
Python dict does), with arbitrary integer (positive, negative or explicit
zero) values and arbitrary integer coordinates, parsing the formatter's
output yields a matrix with the same `num_rows` and `num_cols` and an
element mapping identical to the original (same keys, same values). -/
theorem claim_C3 (m : SparseMatrix) (hnd : NodupKeys m.elements) :
    ∃ m', loadMatrixStr (matStr m) = some m' ∧
      m'.num_rows = m.num_rows ∧ m'.num_cols = m.num_cols ∧
      ∀ q : Int × Int, lookupAL m'.elements q = lookupAL m.elements q := by
  refine ⟨_, loadMatrixStr_matStr m, rfl, rfl, ?_⟩
  intro q
  exact lookup_roundTrip m.elements hnd q

/-- C3 witness: the round trip at a concrete matrix with a negative value,
an explicit zero entry, and out-of-order insertion. -/
theorem claim_C3_witness :
    NodupKeys ([((0, 1), 3), ((1, 0), -5), ((0, 0), 0)] : PyDict) ∧
    ∃ m', loadMatrixStr (matStr ⟨2, 3, [((0, 1), 3), ((1, 0), -5), ((0, 0), 0)]⟩) = some m' ∧
      m'.num_rows = 2 ∧ m'.num_cols = 3 ∧
      ∀ q : Int × Int, lookupAL m'.elements q =
        lookupAL ([((0, 1), 3), ((1, 0), -5), ((0, 0), 0)] : PyDict) q :=
  ⟨by decide, claim_C3 ⟨2, 3, [((0, 1), 3), ((1, 0), -5), ((0, 0), 0)]⟩ (by decide)⟩

/-- C4: each operation fails exactly on its dimension violation — `add`
and `subtract` iff the shapes differ, `multiply` iff `A.num_cols ≠
B.num_rows` — and on success the result has the stated dimensions;
`Option` carries the no-result-on-failure guarantee. -/
theorem claim_C4 (A B : SparseMatrix) :
    (add A B = none ↔ A.num_rows ≠ B.num_rows ∨ A.num_cols ≠ B.num_cols) ∧
    (subtract A B = none ↔ A.num_rows ≠ B.num_rows ∨ A.num_cols ≠ B.num_cols) ∧
    (multiply A B = none ↔ A.num_cols ≠ B.num_rows) ∧
    (∀ C, add A B = some C → C.num_rows = A.num_rows ∧ C.num_cols = A.num_cols) ∧
    (∀ C, subtract A B = some C → C.num_rows = A.num_rows ∧ C.num_cols = A.num_cols) ∧
    (∀ C, multiply A B = some C → C.num_rows = A.num_rows ∧ C.num_cols = B.num_cols) := by
  unfold add subtract multiply
  refine ⟨?_, ?_, ?_, ?_, ?_, ?_⟩ <;> split <;> simp_all

/-- C4 witness: a mismatched addition fails, a compatible multiplication
has the stated result shape. -/
theorem claim_C4_witness :
    add ⟨1, 2, []⟩ ⟨3, 2, []⟩ = none ∧
    (⟨1, 3, ([] : PyDict)⟩ : SparseMatrix).num_rows = 1 ∧
    (⟨1, 3, ([] : PyDict)⟩ : SparseMatrix).num_cols = 3 :=
  ⟨(claim_C4 ⟨1, 2, []⟩ ⟨3, 2, []⟩).1.mpr (by decide),
    ((claim_C4 ⟨1, 2, []⟩ ⟨2, 3, []⟩).2.2.2.2.2 ⟨1, 3, []⟩ (by decide)).1,
    ((claim_C4 ⟨1, 2, []⟩ ⟨2, 3, []⟩).2.2.2.2.2 ⟨1, 3, []⟩ (by decide)).2⟩

/-- C5: whenever both header lines parse but some entry line is non-blank
and not a single parenthesized triple of comma-separated integers
(`entryLineOk` is false), construction fails with `none`: no matrix, no
silent truncation. -/
theorem claim_C5 (l0 l1 : String) (rest : List String) (r c : Int) (bad : String)
    (_h0 : headerNum l0 = some r) (_h1 : headerNum l1 = some c)
    (hmem : bad ∈ rest) (hbad : entryLineOk bad = false) :
    loadMatrix (l0 :: l1 :: rest) = none :=
  loadMatrix_entry_none l0 l1 rest bad hmem hbad

/-- C5 witness: the spec's own example — a third line `(1,2)` missing the
value field — fails construction. -/
theorem claim_C5_witness :
    headerNum "rows=2" = some 2 ∧ headerNum "cols=2" = some 2 ∧
    ("(1,2)" : String) ∈ ["(1,2)"] ∧ entryLineOk "(1,2)" = false ∧
    loadMatrix ["rows=2", "cols=2", "(1,2)"] = none :=
  ⟨by decide, by decide, by decide, by decide,
    claim_C5 "rows=2" "cols=2" ["(1,2)"] 2 2 "(1,2)" (by decide) (by decide)
      (by decide) (by decide)⟩

/-- C6: the formatter produces exactly the header
`rows=<num_rows>\ncols=<num_cols>\n` followed by one line
`(<row>, <col>, <value>)\n` per stored entry — literal `", "` separators,
one trailing newline per line — with the entries emitted as a permutation
of the stored dict (so explicitly stored zeros are emitted too) sorted in
ascending lexicographic order of (row, col). -/
theorem claim_C6 (m : SparseMatrix) :
    matStr m = ("rows=" ++ strOfInt m.num_rows ++ "\n" ++ "cols=" ++ strOfInt m.num_cols ++
        "\n") ++
      String.join ((sortEntries m.elements).map
        (fun e => "(" ++ strOfInt e.1.1 ++ ", " ++ strOfInt e.1.2 ++ ", " ++
          strOfInt e.2 ++ ")\n")) ∧
    (sortEntries m.elements).Pairwise (fun e1 e2 => keyLe e1.1 e2.1) ∧
    (sortEntries m.elements).Perm m.elements := by
  refine ⟨?_, ?_, sortEntries_perm m.elements⟩
  · apply string_ext
    rw [matStr_data, data_append, header_data, join_data]
    have hmaps : (((sortEntries m.elements).map
        (fun e => "(" ++ strOfInt e.1.1 ++ ", " ++ strOfInt e.1.2 ++ ", " ++
          strOfInt e.2 ++ ")\n")).map String.data) =
        (sortEntries m.elements).map (fun e => entryChunk e ++ ['\n']) := by
      rw [List.map_map]
      apply List.map_congr_left
      intro e _
      exact entryStr_data e
    rw [hmaps, join_map_data]
    have hsplit : (headerChunk ['r', 'o', 'w', 's'] m.num_rows ::
        headerChunk ['c', 'o', 'l', 's'] m.num_cols ::
        (sortEntries m.elements).map entryChunk) =
        [headerChunk ['r', 'o', 'w', 's'] m.num_rows,
          headerChunk ['c', 'o', 'l', 's'] m.num_cols] ++
          (sortEntries m.elements).map entryChunk := rfl
    rw [hsplit, withNl_append]
  · have hs : List.Sorted entryLe (sortEntries m.elements) :=
      List.sorted_insertionSort entryLe m.elements
    refine List.Pairwise.imp ?_ hs
    intro a b hab
    unfold entryLe at hab
    unfold keyLe
    omega

/-- C7: `add`, `subtract` and `multiply` never mutate either operand — in
the heap model, every object present before the call is unchanged, the
result lives at a fresh address distinct from both operands, and a
subsequent `set_element` on the result leaves both operands' objects
exactly as they were before the call. -/
theorem claim_C7 (h : Heap) (a b : Nat) (h' : Heap) (r : Nat)
    (ha : a < h.length) (hb : b < h.length)
    (hop : hAdd h a b = some (h', r) ∨ hSub h a b = some (h', r) ∨
      hMul h a b = some (h', r)) :
    (∀ i, i < h.length → h'.get? i = h.get? i) ∧
    r = h.length ∧ r ≠ a ∧ r ≠ b ∧
    ∀ q v, (hSet h' r q v).get? a = h.get? a ∧ (hSet h' r q v).get? b = h.get? b := by
  have key : ∃ obj, h' = h ++ [obj] ∧ r = h.length := by
    rcases hop with hop | hop | hop
    · unfold hAdd at hop
      cases hA : h.get? a with
      | none =>
        rw [hA] at hop
        simp at hop
      | some A =>
        cases hB : h.get? b with
        | none =>
          rw [hA, hB] at hop
          simp at hop
        | some B =>
          rw [hA, hB] at hop
          simp at hop
          exact ⟨_, hop.2.1.symm, hop.2.2.symm⟩
    · unfold hSub at hop
      cases hA : h.get? a with
      | none =>
        rw [hA] at hop
        simp at hop
      | some A =>
        cases hB : h.get? b with
        | none =>
          rw [hA, hB] at hop
          simp at hop
        | some B =>
          rw [hA, hB] at hop
          simp at hop
          exact ⟨_, hop.2.1.symm, hop.2.2.symm⟩
    · unfold hMul at hop
      cases hA : h.get? a with
      | none =>
        rw [hA] at hop
        simp at hop
      | some A =>
        cases hB : h.get? b with
        | none =>
          rw [hA, hB] at hop
          simp at hop
        | some B =>
          rw [hA, hB] at hop
          simp at hop
          exact ⟨_, hop.2.1.symm, hop.2.2.symm⟩
  obtain ⟨obj, hobj, hr⟩ := key
  refine ⟨?_, hr, by omega, by omega, ?_⟩
  · intro i hi
    rw [hobj]
    exact heap_get?_append h obj i hi
  · intro q v
    constructor
    · rw [hSet_get?_ne h' r q v a (by omega), hobj]
      exact heap_get?_append h obj a ha
    · rw [hSet_get?_ne h' r q v b (by omega), hobj]
      exact heap_get?_append h obj b hb

/-- C7 witness: one concrete `add` on a two-object heap — the result is
allocated at the fresh address 2, and a `set_element` on it leaves
operand 0 unchanged. -/
theorem claim_C7_witness :
    (0 < ([⟨1, 1, []⟩, ⟨1, 1, [((0, 0), 3)]⟩] : Heap).length) ∧
    (1 < ([⟨1, 1, []⟩, ⟨1, 1, [((0, 0), 3)]⟩] : Heap).length) ∧
    hAdd [⟨1, 1, []⟩, ⟨1, 1, [((0, 0), 3)]⟩] 0 1 =
      some ([⟨1, 1, []⟩, ⟨1, 1, [((0, 0), 3)]⟩, ⟨1, 1, [((0, 0), 3)]⟩], 2) ∧
    (2 : Nat) ≠ 0 ∧
    (hSet [⟨1, 1, []⟩, ⟨1, 1, [((0, 0), 3)]⟩, ⟨1, 1, [((0, 0), 3)]⟩] 2 (0, 0) 9).get? 0 =
      ([⟨1, 1, []⟩, ⟨1, 1, [((0, 0), 3)]⟩] : Heap).get? 0 :=
  ⟨by decide, by decide, by decide,
    (claim_C7 [⟨1, 1, []⟩, ⟨1, 1, [((0, 0), 3)]⟩] 0 1
      [⟨1, 1, []⟩, ⟨1, 1, [((0, 0), 3)]⟩, ⟨1, 1, [((0, 0), 3)]⟩] 2
      (by decide) (by decide) (Or.inl (by decide))).2.2.1,
    ((claim_C7 [⟨1, 1, []⟩, ⟨1, 1, [((0, 0), 3)]⟩] 0 1
      [⟨1, 1, []⟩, ⟨1, 1, [((0, 0), 3)]⟩, ⟨1, 1, [((0, 0), 3)]⟩] 2
      (by decide) (by decide) (Or.inl (by decide))).2.2.2.2 (0, 0) 9).1⟩

/-- C8: for matrices of equal dimensions (with unique-keyed element dicts,
as every Python dict has), `Add(A,B)` and `Add(B,A)` agree on
`get_element` at every coordinate. -/
theorem claim_C8 (A B : SparseMatrix) (hr : A.num_rows = B.num_rows)
    (hc : A.num_cols = B.num_cols) (hA : NodupKeys A.elements) (hB : NodupKeys B.elements) :
    ∃ C D, add A B = some C ∧ add B A = some D ∧
      ∀ r c : Int, getElement C r c = getElement D r c := by
  refine ⟨⟨A.num_rows, A.num_cols, addElems A.elements B.elements⟩,
    ⟨B.num_rows, B.num_cols, addElems B.elements A.elements⟩, ?_, ?_, ?_⟩
  · unfold add
    rw [if_neg (by omega)]
  · unfold add
    rw [if_neg (by omega)]
  · intro r c
    show look0 (addElems A.elements B.elements) (r, c) =
      look0 (addElems B.elements A.elements) (r, c)
    rw [look0_addElems, look0_addElems, sumAt_eq_look0 _ _ hB, sumAt_eq_look0 _ _ hA]
    ring

/-- C8 witness: commutativity hypotheses and conclusion at a concrete pair
overlapping in one coordinate. -/
theorem claim_C8_witness :
    ((⟨1, 2, [((0, 0), 1), ((0, 1), 5)]⟩ : SparseMatrix).num_rows =
      (⟨1, 2, [((0, 0), 2)]⟩ : SparseMatrix).num_rows) ∧
    ((⟨1, 2, [((0, 0), 1), ((0, 1), 5)]⟩ : SparseMatrix).num_cols =
      (⟨1, 2, [((0, 0), 2)]⟩ : SparseMatrix).num_cols) ∧
    NodupKeys ([((0, 0), 1), ((0, 1), 5)] : PyDict) ∧
    NodupKeys ([((0, 0), 2)] : PyDict) ∧
    ∃ C D, add ⟨1, 2, [((0, 0), 1), ((0, 1), 5)]⟩ ⟨1, 2, [((0, 0), 2)]⟩ = some C ∧
      add ⟨1, 2, [((0, 0), 2)]⟩ ⟨1, 2, [((0, 0), 1), ((0, 1), 5)]⟩ = some D ∧
      ∀ r c : Int, getElement C r c = getElement D r c :=
  ⟨by decide, by decide, by decide, by decide,
    claim_C8 ⟨1, 2, [((0, 0), 1), ((0, 1), 5)]⟩ ⟨1, 2, [((0, 0), 2)]⟩
      (by decide) (by decide) (by decide) (by decide)⟩

/-- C9: `get_element` and `set_element` are total for arbitrary integer
coordinates (no bounds check, no failure): `get_element` after
`set_element` returns the new value at the written coordinate and is
unchanged elsewhere; the declared dimensions are untouched; and
`get_element` returns the stored value, or 0 exactly when the coordinate
is absent. -/
theorem claim_C9 (m : SparseMatrix) (r c v r' c' : Int) :
    getElement (setElement m r c v) r' c' =
      (if (r', c') = (r, c) then v else getElement m r' c') ∧
    (setElement m r c v).num_rows = m.num_rows ∧
    (setElement m r c v).num_cols = m.num_cols ∧
    (lookupAL m.elements (r', c') = none → getElement m r' c' = 0) ∧
    (∀ w, lookupAL m.elements (r', c') = some w → getElement m r' c' = w) := by
  refine ⟨?_, rfl, rfl, ?_, ?_⟩
  · show look0 (insertAL m.elements (r, c) v) (r', c') = _
    rw [look0_insertAL]
    by_cases h : ((r, c) : Int × Int) = (r', c')
    · rw [if_pos h, if_pos h.symm]
    · rw [if_neg h, if_neg (fun hh => h hh.symm)]
      rfl
  · intro hnone
    show (lookupAL m.elements (r', c')).getD 0 = 0
    rw [hnone]
    rfl
  · intro w hw
    show (lookupAL m.elements (r', c')).getD 0 = w
    rw [hw]
    rfl

/-- C9 witness: setting far outside the declared 1×1 bounds succeeds, the
written cell reads back, and an absent coordinate reads 0. -/
theorem claim_C9_witness :
    lookupAL ([((0, 0), 7)] : PyDict) (5, -3) = none ∧
    getElement (⟨1, 1, [((0, 0), 7)]⟩ : SparseMatrix) 5 (-3) = 0 ∧
    getElement (setElement ⟨1, 1, [((0, 0), 7)]⟩ 9 9 4) 9 9 =
      (if ((9 : Int), (9 : Int)) = ((9 : Int), (9 : Int)) then (4 : Int)
        else getElement ⟨1, 1, [((0, 0), 7)]⟩ 9 9) :=
  ⟨by decide,
    (claim_C9 ⟨1, 1, [((0, 0), 7)]⟩ 0 0 0 5 (-3)).2.2.2.1 (by decide),
    (claim_C9 ⟨1, 1, [((0, 0), 7)]⟩ 9 9 4 9 9).1⟩

/-- C10: stored entries of `B` whose column index lies outside
`[0, B.num_cols)` never contribute to `Multiply(A, B)` — the result equals
the product with those entries filtered out — and every key `(r, k)` of the
result's element mapping satisfies `0 ≤ k < B.num_cols`. -/
theorem claim_C10 (A B : SparseMatrix) (hdim : A.num_cols = B.num_rows) :
    multiply A B =
      multiply A ⟨B.num_rows, B.num_cols, B.elements.filter (colInRange B.num_cols)⟩ ∧
    ∀ C, multiply A B = some C → ∀ e ∈ C.elements, 0 ≤ e.1.2 ∧ e.1.2 < B.num_cols := by
  constructor
  · unfold multiply
    rw [if_neg (by omega)]
    have h2 : ¬ (A.num_cols ≠ (⟨B.num_rows, B.num_cols,
        B.elements.filter (colInRange B.num_cols)⟩ : SparseMatrix).num_rows) := by
      show ¬ (A.num_cols ≠ B.num_rows)
      omega
    rw [if_neg h2]
    show _ = some ⟨A.num_rows, B.num_cols,
      mulElems A.elements B.num_cols (B.elements.filter (colInRange B.num_cols))⟩
    rw [mulElems_filter]
  · intro C hC e he
    unfold multiply at hC
    rw [if_neg (by omega)] at hC
    have hCeq := Option.some.inj hC
    rw [← hCeq] at he
    exact mulElems_keys_in_range A.elements B.num_cols B.elements e he

/-- C10 witness: a stored entry of `B` at column 5 of a declared 1×1
matrix is invisible to the product. -/
theorem claim_C10_witness :
    ((⟨1, 1, [((0, 0), 2)]⟩ : SparseMatrix).num_cols =
      (⟨1, 1, [((0, 5), 7)]⟩ : SparseMatrix).num_rows) ∧
    multiply ⟨1, 1, [((0, 0), 2)]⟩ ⟨1, 1, [((0, 5), 7)]⟩ =
      multiply ⟨1, 1, [((0, 0), 2)]⟩
        ⟨1, 1, List.filter (colInRange 1) [((0, 5), 7)]⟩ :=
  ⟨by decide, (claim_C10 ⟨1, 1, [((0, 0), 2)]⟩ ⟨1, 1, [((0, 5), 7)]⟩ (by decide)).1⟩
